import Mathlib

/-!
Verification of the graph-tool core against its specification.

The development shallowly embeds two source files:
* `src/graph/centrality/graph_pagerank.hh` (the `get_pagerank` functor), and
* `src/graph/graph_python_interface.cc` (the bulk edge-list loaders and
  `add_vertex`).

C++ `double` arithmetic is modelled by `ℚ`; property maps over the vertices
`0 .. n-1` are modelled by `List ℚ` accessed with `List.getD _ 0` (the maps
are allocated with `num_vertices(g)` entries, zero-initialised); a possibly
non-terminating `while` loop is modelled with an explicit fuel parameter
returning `Option`; C++ exceptions are modelled with `Except`, the error
carrying the mutated-so-far state since the C++ code mutates the caller's
graph in place.
-/

set_option maxRecDepth 40000

attribute [local semireducible] Rat.add Rat.sub Rat.mul Rat.inv

/-- An edge of the input graph.  `w` is the value the read-only weight map
`Weight` yields for this edge (`get(weight, e)` in the source); the default
weight map is the constant 1. -/
structure Edge where
  src : Nat
  tgt : Nat
  w : ℚ
deriving DecidableEq

/-- The graph view handed to the kernels: vertices are `0 .. n-1`, the edge
list carries the weight values, and `directed` is `graph_tool::is_directed(g)`.
(The claims under verification use unfiltered, unreversed views, so the
optional filter predicates are not modelled.) -/
structure Graph where
  n : Nat
  directed : Bool
  edges : List Edge
deriving DecidableEq

/-- `in_or_out_edges_range(v, g)`: for a directed graph the in-edges of `v`;
for an undirected graph all edges incident to `v` (such an edge is presented
by the range with source `v` and target the adjacent endpoint). -/
def in_or_out_edges_range (g : Graph) (v : Nat) : List Edge :=
  if g.directed then g.edges.filter (fun e => e.tgt == v)
  else g.edges.filter (fun e => e.src == v || e.tgt == v)

/-- The flow source `s` chosen in the iteration body:
`if (graph_tool::is_directed(g)) s = source(e, g); else s = target(e, g);`.
For an undirected graph the range presents an edge incident to `v` with
source `v`, so `target(e, g)` is the adjacent endpoint. -/
def flowSource (g : Graph) (v : Nat) (e : Edge) : Nat :=
  if g.directed then e.src
  else if e.src == v then e.tgt else e.src

/-- `out_degreeS()(v, g, weight)`: the weighted out-degree of `v` (for an
undirected graph, the weighted degree over all incident edges). -/
def out_degreeS (g : Graph) (v : Nat) : ℚ :=
  if g.directed then ((g.edges.filter (fun e => e.src == v)).map Edge.w).sum
  else ((g.edges.filter (fun e => e.src == v || e.tgt == v)).map Edge.w).sum

/-- The `deg` property map precomputed before the iteration loop:
`parallel_vertex_loop(g, [&](auto v){ put(deg, v, out_degreeS()(v, g, weight)); });`. -/
def degInit (g : Graph) : List ℚ :=
  (List.range g.n).map (out_degreeS g)

/-- The per-vertex accumulation of the iteration body:
`rank_type r = 0; for (e : in_or_out_edges_range(v, g)) r += (get(rank, s) * get(weight, e)) / get(deg, s);`.
The division is performed unconditionally for every edge of the range. -/
def vertexAccum (g : Graph) (deg rank : List ℚ) (v : Nat) : ℚ :=
  (in_or_out_edges_range g v).foldl
    (fun r e => r + (rank.getD (flowSource g v e) 0 * e.w) / deg.getD (flowSource g v e) 0) 0

/-- One whole iteration of the loop body over all vertices: the first
component is the `r_temp` buffer after
`put(r_temp, v, (1.0 - d) * get(pers, v) + d * r)` for every vertex, the
second is the reduced `delta` accumulated by
`delta += abs(get(r_temp, v) - get(rank, v))`. -/
def prStep (g : Graph) (deg pers : List ℚ) (d : ℚ) (rank : List ℚ) : List ℚ × ℚ :=
  let r_temp := (List.range g.n).map
    (fun v => (1 - d) * pers.getD v 0 + d * vertexAccum g deg rank v)
  (r_temp, ((List.range g.n).map (fun v => |r_temp.getD v 0 - rank.getD v 0|)).sum)

/-- The state of the ping-pong loop.  `bufA` is the physical storage shared
with the caller's rank map, `bufB` the scratch storage allocated as `r_temp`;
`swapped = true` when, after the `swap(r_temp, rank)` calls so far, the local
name `rank` refers to `bufB` (and `r_temp` to `bufA`). -/
structure PRState where
  bufA : List ℚ
  bufB : List ℚ
  swapped : Bool
  delta : ℚ
  iter : Nat
deriving DecidableEq

/-- The buffer the local name `rank` currently refers to. -/
def curRank (st : PRState) : List ℚ :=
  if st.swapped then st.bufB else st.bufA

/-- One execution of the while-loop body: compute into the buffer named
`r_temp`, accumulate `delta`, then `swap(r_temp, rank); ++iter;`. -/
def prBody (g : Graph) (deg pers : List ℚ) (d : ℚ) (st : PRState) : PRState :=
  let res := prStep g deg pers d (curRank st)
  if st.swapped then ⟨res.1, st.bufB, false, res.2, st.iter + 1⟩
  else ⟨st.bufA, res.1, true, res.2, st.iter + 1⟩

/-- The `while (delta >= epsilon)` loop with its
`if (max_iter > 0 && iter == max_iter) break;` exit, run with explicit fuel;
`none` means the fuel was exhausted before the loop exited. -/
def prLoop (g : Graph) (deg pers : List ℚ) (d eps : ℚ) (maxIter : Nat) :
    Nat → PRState → Option PRState
  | 0, _ => none
  | fuel + 1, st =>
    if st.delta < eps then some st
    else
      let st1 := prBody g deg pers d st
      if 0 < maxIter ∧ st1.iter = maxIter then some st1
      else prLoop g deg pers d eps maxIter fuel st1

/-- The post-loop parity fix-up:
`if (iter % 2 != 0) parallel_vertex_loop(g, [&](auto v){ put(rank, v, get(r_temp, v)); });`,
i.e. the buffer currently named `rank` is overwritten from the buffer
currently named `r_temp`. -/
def prFixup (st : PRState) : PRState :=
  if st.iter % 2 ≠ 0 then
    if st.swapped then { st with bufB := st.bufA }
    else { st with bufA := st.bufB }
  else st

/-- `get_pagerank::operator()`: returns the caller-visible rank map (the
physical storage `bufA` the caller's map shares) together with the iteration
count written to `iter`; `none` if the fuel ran out before the loop exited. -/
def get_pagerank (g : Graph) (rank pers : List ℚ) (d eps : ℚ)
    (maxIter fuel : Nat) : Option (List ℚ × Nat) :=
  let deg := degInit g
  match prLoop g deg pers d eps maxIter fuel ⟨rank, List.replicate g.n 0, false, eps + 1, 0⟩ with
  | none => none
  | some st => some ((prFixup st).bufA, (prFixup st).iter)

/-- The mathematical iterates of the update: `ranksAt k` is the rank vector
after `k` completed iterations of the loop body starting from `rank0`. -/
def ranksAt (g : Graph) (pers : List ℚ) (d : ℚ) (rank0 : List ℚ) : Nat → List ℚ
  | 0 => rank0
  | k + 1 => (prStep g (degInit g) pers d (ranksAt g pers d rank0 k)).1

/-- The `delta` accumulated during iteration `k` (used for `k ≥ 1`). -/
def deltaAt (g : Graph) (pers : List ℚ) (d : ℚ) (rank0 : List ℚ) (k : Nat) : ℚ :=
  (prStep g (degInit g) pers d (ranksAt g pers d rank0 (k - 1))).2

/-- The loop's exit condition at iteration count `k`: either iteration `k`'s
accumulated delta fell below `epsilon`, or (when `max_iter` is nonzero) `k`
reached `max_iter`. -/
def exitCond (g : Graph) (pers : List ℚ) (d : ℚ) (rank0 : List ℚ) (eps : ℚ)
    (maxIter k : Nat) : Prop :=
  deltaAt g pers d rank0 k < eps ∨ (0 < maxIter ∧ k = maxIter)

/-- The list of denominators of the divisions performed during one iteration
of the loop body: line 71 of `graph_pagerank.hh` executes
`r += (get(rank, s) * get(weight, e)) / get(deg, s);` unconditionally for
every vertex `v` and every edge of `in_or_out_edges_range(v, g)`, so exactly
these values of `get(deg, s)` occur as divisors (identically in every
iteration, since `deg` is precomputed once). -/
def prDenominators (g : Graph) : List ℚ :=
  (List.range g.n).flatMap
    (fun v => (in_or_out_edges_range g v).map
      (fun e => (degInit g).getD (flowSource g v e) 0))

/-- `add_vertex(python::object g, size_t n)` from `graph_python_interface.cc`:
given the current number of vertices, returns the new number of vertices and
the vertex object handed back to the caller (`none` models the empty
`python::object()` of the `n > 1` branch).  `add_vertex(gi.GetGraph())`
appends a vertex whose index is the previous vertex count. -/
def add_vertex (numVertices n : Nat) : Nat × Option Nat :=
  if n > 1 then (numVertices + n, none)
  else (numVertices + 1, some numVertices)

/-- The graph-plus-edge-properties state mutated by the bulk loaders.
`edges` lists the edges in creation order (an edge's descriptor is its
position), `attrVals` records every successful
`put(eprops[i], ne, value)` as `(i, ne, converted value)`. -/
structure LState where
  numV : Nat
  edges : List (Nat × Nat)
  attrVals : List (Nat × Nat × Int)
deriving DecidableEq

/-- The message of the `ValueException` thrown when a dynamic property set
fails: `"Invalid edge property value: " + lexical_cast<string>(value)`. -/
def errMsg (v : Int) : String :=
  "Invalid edge property value: " ++ toString v

/-- `while (s >= num_vertices(g) || t >= num_vertices(g)) add_vertex(g);`
The loop appends vertices one at a time until both `s` and `t` are valid
indices, i.e. until the vertex count reaches `max numV (max (s+1) (t+1))`. -/
def growVerts (numV s t : Nat) : Nat :=
  max numV (max (s + 1) (t + 1))

/-- `for (size_t i = 0; i < e.size() - 2; ++i) put(eprops[i], ne, e[i + 2]);`
with each `put` wrapped in `try { ... } catch (bad_lexical_cast&) { throw ValueException(...); }`.
`pairs` zips the attribute values of the record with the conversion functions
of the supplied edge property maps (a conversion returning `none` models the
`bad_lexical_cast`); `i` is the index of the first map in `pairs`. -/
def putProps (ne i : Nat) : List (Int × (Int → Option Int)) → LState →
    Except (String × LState) LState
  | [], st => .ok st
  | (v, c) :: rest, st =>
    match c v with
    | some w => putProps ne (i + 1) rest { st with attrVals := st.attrVals ++ [(i, ne, w)] }
    | none => .error (errMsg v, st)

/-- `e[0]` read into `size_t s` (the scalar array value converted to the
64-bit unsigned vertex index). -/
def recS (row : List Int) : Nat := ((row.getD 0 0).emod (2 ^ 64)).toNat

/-- `e[1]` read into `size_t t`. -/
def recT (row : List Int) : Nat := ((row.getD 1 0).emod (2 ^ 64)).toNat

/-- The body of `add_edge_list::dispatch::operator()`'s record loop for one
record: resolve `s` and `t`, grow the graph while either index is out of
range, `add_edge(vertex(s, g), vertex(t, g), g)`, then write the record's
attribute values through the edge property maps. -/
def processRecord (convs : List (Int → Option Int)) (row : List Int) (st : LState) :
    Except (String × LState) LState :=
  let s := recS row
  let t := recT row
  let st1 : LState := { numV := growVerts st.numV s t, edges := st.edges ++ [(s, t)],
                        attrVals := st.attrVals }
  putProps (st.edges.length) 0 ((row.drop 2).zip convs) st1

/-- `for (const auto& e : edge_list) { ... }`: the records processed in
order; a `ValueException` aborts the loop, the state mutated so far being
carried in the error. -/
def runRecords (convs : List (Int → Option Int)) :
    List (List Int) → LState → Except (String × LState) LState
  | [], st => .ok st
  | row :: rest, st =>
    match processRecord convs row st with
    | .ok st1 => runRecords convs rest st1
    | .error err => .error err

/-- The closed list of scalar value kinds an input array can carry (the
engine's value domain, plus the non-scalar kinds `str` and `pyobject` a
python array can also have). -/
inductive ScalarT
  | bool | char | uint8 | uint16 | uint32 | uint64
  | int8 | int16 | int32 | int64 | double | longDouble
  | str | pyobject
deriving DecidableEq

/-- A two-dimensional numpy edge array: its runtime element type tag, the
size of its second dimension, and its rows (the numeric contents, one value
per cell). -/
structure PyArray2D where
  elemType : ScalarT
  ncols : Nat
  rows : List (List Int)
deriving DecidableEq

/-- The admissible scalar type list of `do_add_edge_list`:
`mpl::vector<bool, char, uint8_t, uint16_t, uint32_t, uint64_t, int8_t,
int16_t, int32_t, int64_t, uint64_t, double, long double>` (with `uint64_t`
listed twice, as in the source). -/
def vals_t : List ScalarT :=
  [.bool, .char, .uint8, .uint16, .uint32, .uint64,
   .int8, .int16, .int32, .int64, .uint64, .double, .longDouble]

/-- `get_array<Value, 2>(aedge_list)`: succeeds exactly when the array's
element type is `Value`, otherwise throws `invalid_numpy_conversion`
(modelled by `none`). -/
def get_array (a : PyArray2D) (t : ScalarT) : Option (List (List Int)) :=
  if a.elemType = t then some a.rows else none

/-- The failures `do_add_edge_list` can surface to the caller. -/
inductive LoadError
  | typeMismatch
  | badShape
  | valueError (msg : String)
deriving DecidableEq

/-- `boost::mpl::for_each<ValueList>(std::bind(dispatch(), ...))` over the
candidate types followed by the `found` check: each `dispatch::operator()`
first runs `get_array<Value, 2>` (throwing `invalid_numpy_conversion` — i.e.
moving on to the next candidate — before anything is mutated), then checks
`edge_list.shape()[1] < 2` (a `GraphException`), then loads the records; if
no candidate matched, `do_add_edge_list` throws
`GraphException("Invalid type for edge list; ...")`, the graph untouched. -/
def dispatchTypes (convs : List (Int → Option Int)) (a : PyArray2D) (st : LState) :
    List ScalarT → Except (LoadError × LState) LState
  | [] => .error (.typeMismatch, st)
  | t :: rest =>
    match get_array a t with
    | none => dispatchTypes convs a st rest
    | some rows =>
      if a.ncols < 2 then .error (.badShape, st)
      else
        match runRecords convs rows st with
        | .ok st1 => .ok st1
        | .error (msg, st1) => .error (.valueError msg, st1)

/-- `do_add_edge_list(gi, aedge_list, eprops)`. -/
def do_add_edge_list (convs : List (Int → Option Int)) (a : PyArray2D) (st : LState) :
    Except (LoadError × LState) LState :=
  dispatchTypes convs a st vals_t

/-- The state mutated by the hashed (string-keyed) loader:
`table` is the `unordered_map<std::string, size_t> vertices` dedup table (as
an association list in insertion order), `vmap` records the writes
`vmap[v] = lexical_cast<...>(r)` into the caller-supplied vertex property
map, `edges` the created edges in order. -/
structure HState where
  numV : Nat
  table : List (String × Nat)
  vmap : List (Nat × String)
  edges : List (Nat × Nat)
deriving DecidableEq

/-- The `get_vertex` lambda of the hashed loader (string overload):
look the key up in the dedup table; if absent, `add_vertex(g)` (the new
index is the previous vertex count), record the key-to-index mapping in the
table and in the caller's vertex map, and return the new index; otherwise
return the existing index. -/
def get_vertex (r : String) (st : HState) : Nat × HState :=
  match st.table.lookup r with
  | some v => (v, st)
  | none =>
    (st.numV, ⟨st.numV + 1, st.table ++ [(r, st.numV)], st.vmap ++ [(st.numV, r)], st.edges⟩)

/-- One record of the string-keyed loader restricted to two columns (a key
pair): `case 0` resolves `s` (followed by
`while (s >= num_vertices(g)) add_vertex(g);`), `case 1` resolves `t`
likewise and adds the edge. -/
def processHRow (row : String × String) (st : HState) : HState :=
  let p := get_vertex row.1 st
  let st1 : HState := ⟨max p.2.numV (p.1 + 1), p.2.table, p.2.vmap, p.2.edges⟩
  let q := get_vertex row.2 st1
  ⟨max q.2.numV (q.1 + 1), q.2.table, q.2.vmap, q.2.edges ++ [(p.1, q.1)]⟩

/-- `add_edge_list_hash::dispatch::operator()` (string overload) on a
sequence of key pairs. -/
def add_edge_list_hashed (rows : List (String × String)) (st : HState) : HState :=
  rows.foldl (fun st row => processHRow row st) st

/-- Specification-side description of one key arriving at the dedup table
(for comparison with the loader): a first-seen key is appended with the next
free index; a later occurrence changes nothing. -/
def tblStep (tbl : List (String × Nat)) (k : String) : List (String × Nat) :=
  if (tbl.lookup k).isSome then tbl else tbl ++ [(k, tbl.length)]

/-- Specification-side description of the dedup table built from a key
sequence: indices are assigned in first-seen order. -/
def specKeyAssign (ks : List String) : List (String × Nat) :=
  ks.foldl tblStep []

/-! ### Helper lemmas -/

theorem getD_map_range (n v : Nat) (f : Nat → ℚ) (h : v < n) :
    ((List.range n).map f).getD v 0 = f v := by
  rw [List.getD_eq_getElem _ _ (by simpa using h), List.getElem_map, List.getElem_range]

theorem degInit_getD (g : Graph) (v : Nat) (h : v < g.n) :
    (degInit g).getD v 0 = out_degreeS g v :=
  getD_map_range _ _ _ h

theorem mem_edges_of_mem_in_or_out (g : Graph) (v : Nat) (e : Edge)
    (he : e ∈ in_or_out_edges_range g v) : e ∈ g.edges := by
  unfold in_or_out_edges_range at he
  split at he <;> exact List.mem_of_mem_filter he

theorem flowSource_lt (g : Graph) (v : Nat) (e : Edge)
    (hwf : ∀ e ∈ g.edges, e.src < g.n ∧ e.tgt < g.n)
    (he : e ∈ in_or_out_edges_range g v) : flowSource g v e < g.n := by
  have hm : e ∈ g.edges := mem_edges_of_mem_in_or_out g v e he
  unfold flowSource
  split
  · exact (hwf e hm).1
  · split
    · exact (hwf e hm).2
    · exact (hwf e hm).1

theorem foldl_add_map {α : Type} (l : List α) (f : α → ℚ) (c : ℚ) :
    l.foldl (fun r e => r + f e) c = c + (l.map f).sum := by
  induction l generalizing c with
  | nil => simp
  | cons a t ih => rw [List.foldl_cons, ih, List.map_cons, List.sum_cons]; ring

/-! ### Claim C10 -/

/-- Claim C10: `add_vertex` takes the multi-add path (returning no vertex
object) only when the requested count is greater than one; for a count of 0
as well as 1 it adds exactly one vertex and returns that vertex, so
requesting zero vertices still grows the graph by one. -/
theorem add_vertex_zero_adds_one (nv n : Nat) :
    (1 < n → add_vertex nv n = (nv + n, none))
    ∧ (n ≤ 1 → add_vertex nv n = (nv + 1, some nv)) := by
  constructor
  · intro h; rw [add_vertex, if_pos h]
  · intro h; rw [add_vertex, if_neg (by omega)]

theorem add_vertex_zero_adds_one_witness :
    add_vertex 5 0 = (6, some 5) ∧ add_vertex 5 3 = (8, none) :=
  ⟨(add_vertex_zero_adds_one 5 0).2 (by decide),
   (add_vertex_zero_adds_one 5 3).1 (by decide)⟩

/-! ### Claim C7 -/

theorem dispatchTypes_no_match (convs : List (Int → Option Int)) (a : PyArray2D)
    (st : LState) (l : List ScalarT) (h : a.elemType ∉ l) :
    dispatchTypes convs a st l = .error (.typeMismatch, st) := by
  induction l with
  | nil => rfl
  | cons t rest ih =>
    have h1 : a.elemType ≠ t := fun hh => h (hh ▸ List.mem_cons_self t rest)
    have h2 : a.elemType ∉ rest := fun hh => h (List.mem_cons_of_mem _ hh)
    rw [dispatchTypes]
    simp only [get_array, if_neg h1]
    exact ih h2

/-- Claim C7: when the element type of the array handed to `add_edge_list`
matches none of the admissible scalar types, the call fails with the
type-mismatch `GraphException` and the graph state is returned completely
unmodified — every candidate's `get_array` throws before any mutation. -/
theorem add_edge_list_type_mismatch_unmodified (convs : List (Int → Option Int))
    (a : PyArray2D) (st : LState) (h : a.elemType ∉ vals_t) :
    do_add_edge_list convs a st = .error (.typeMismatch, st) :=
  dispatchTypes_no_match convs a st vals_t h

theorem add_edge_list_type_mismatch_unmodified_witness :
    do_add_edge_list [] ⟨.str, 2, [[0, 1]]⟩ ⟨0, [], []⟩
      = .error (.typeMismatch, ⟨0, [], []⟩) :=
  add_edge_list_type_mismatch_unmodified [] ⟨.str, 2, [[0, 1]]⟩ ⟨0, [], []⟩ (by decide)

/-! ### Claim C1 -/

/-- Claim C1 (refuted; evaluation of the code at the failing input): after a
run that exits the loop with an odd number of completed iterations, the
caller-visible rank map still holds the ranks of the previous iteration, not
the most recently computed ones.  On the 1-vertex edgeless directed graph
with initial rank `[0]`, personalization `[1]`, damping 0, epsilon 1 and
`max_iter = 1`, the single iteration computes rank `[1]`
(`ranksAt ... 1 = [1]`), but the call returns the caller map unchanged at
`[0]`: the post-loop copy `put(rank, v, get(r_temp, v))` writes the caller's
buffer (named `r_temp` after the odd number of swaps) into the scratch
buffer (named `rank`), instead of the other way around. -/
theorem get_pagerank_odd_iter_returns_stale_ranks :
    get_pagerank ⟨1, true, []⟩ [0] [1] 0 1 1 5 = some ([0], 1)
    ∧ ranksAt ⟨1, true, []⟩ [1] 0 [0] 1 = [1]
    ∧ get_pagerank ⟨1, true, []⟩ [0] [1] 0 1 1 5
        ≠ some (ranksAt ⟨1, true, []⟩ [1] 0 [0] 1, 1) :=
  ⟨by decide, by decide, by decide⟩

/-! ### Claim C2 -/

/-- Claim C2 (counterexample): it is not true that every division performed
by the iteration body has a strictly positive denominator — line 71 divides
by `get(deg, s)` unconditionally, and on the directed graph with a single
zero-weight edge 0→1 the edge is considered for vertex 1 while vertex 0's
precomputed weighted degree is 0, so a division by zero is performed. -/
theorem pagerank_division_guard_refuted :
    ¬ ∀ g : Graph, ∀ q ∈ prDenominators g, 0 < q := by
  intro h
  exact absurd (h ⟨2, true, [⟨0, 1, 0⟩]⟩ 0 (by decide)) (by decide)

/-- Claim C2 (amended): the division by the flow source's precomputed
weighted degree is performed unconditionally for every considered edge, but
every considered edge lies in its own flow source's out-edge set, so for a
well-formed graph all of whose edge weights are strictly positive (in
particular under the default uniform weight 1) every denominator is strictly
positive and no division by zero ever occurs. -/
theorem pagerank_no_div_by_zero_of_pos_weights (g : Graph)
    (hw : ∀ e ∈ g.edges, 0 < e.w)
    (hwf : ∀ e ∈ g.edges, e.src < g.n ∧ e.tgt < g.n) :
    ∀ q ∈ prDenominators g, 0 < q := by
  intro q hq
  rw [prDenominators, List.mem_flatMap] at hq
  obtain ⟨v, hv, hq⟩ := hq
  rw [List.mem_map] at hq
  obtain ⟨e, he, rfl⟩ := hq
  have hm : e ∈ g.edges := mem_edges_of_mem_in_or_out g v e he
  have hs : flowSource g v e < g.n := flowSource_lt g v e hwf he
  rw [degInit_getD g _ hs]
  by_cases hd : g.directed = true
  · have hsrc : flowSource g v e = e.src := by rw [flowSource, if_pos hd]
    rw [out_degreeS, if_pos hd, hsrc]
    apply List.sum_pos
    · intro x hx
      obtain ⟨a, ha, rfl⟩ := List.mem_map.mp hx
      exact hw a (List.mem_of_mem_filter ha)
    · have hmem : e ∈ g.edges.filter (fun x => x.src == e.src) :=
        List.mem_filter.mpr ⟨hm, by simp⟩
      intro hn
      rw [List.map_eq_nil_iff] at hn
      rw [hn] at hmem
      exact absurd hmem (List.not_mem_nil e)
  · have hend : e.src = flowSource g v e ∨ e.tgt = flowSource g v e := by
      rw [flowSource, if_neg hd]
      by_cases h1 : e.src == v
      · rw [if_pos h1]; right; rfl
      · rw [if_neg h1]; left; rfl
    rw [out_degreeS, if_neg hd]
    apply List.sum_pos
    · intro x hx
      obtain ⟨a, ha, rfl⟩ := List.mem_map.mp hx
      exact hw a (List.mem_of_mem_filter ha)
    · have hmem : e ∈ g.edges.filter
          (fun x => x.src == flowSource g v e || x.tgt == flowSource g v e) := by
        refine List.mem_filter.mpr ⟨hm, ?_⟩
        rcases hend with h1 | h1 <;> simp [h1]
      intro hn
      rw [List.map_eq_nil_iff] at hn
      rw [hn] at hmem
      exact absurd hmem (List.not_mem_nil e)

theorem pagerank_no_div_by_zero_of_pos_weights_witness : (0 : ℚ) < 1 :=
  pagerank_no_div_by_zero_of_pos_weights ⟨2, true, [⟨0, 1, 1⟩]⟩
    (by decide) (by decide) 1 (by decide)

/-! ### Claim C4 -/

theorem vertexAccum_eq_sum (g : Graph) (rank : List ℚ) (v : Nat)
    (hwf : ∀ e ∈ g.edges, e.src < g.n ∧ e.tgt < g.n) :
    vertexAccum g (degInit g) rank v
      = ((in_or_out_edges_range g v).map
          (fun e => rank.getD (flowSource g v e) 0 * e.w
            / out_degreeS g (flowSource g v e))).sum := by
  rw [vertexAccum, foldl_add_map, zero_add]
  refine congrArg List.sum (List.map_congr_left ?_)
  intro e he
  rw [degInit_getD g _ (flowSource_lt g v e hwf he)]

/-- Claim C4: in every iteration, the new rank written for a vertex `v`
equals `(1-d) * personalization[v] + d * S`, where `S` sums, over `v`'s
relevant incident edges, the flow source's current rank times the edge
weight divided by the flow source's precomputed weighted degree (the flow
source being the edge's source for a directed graph and the adjacent
endpoint for an undirected one); and the iteration's global delta is the sum
over all vertices of the absolute difference between the new and old rank. -/
theorem prStep_implements_update (g : Graph) (pers : List ℚ) (d : ℚ)
    (rank : List ℚ) (v : Nat)
    (hwf : ∀ e ∈ g.edges, e.src < g.n ∧ e.tgt < g.n) (hv : v < g.n) :
    (prStep g (degInit g) pers d rank).1.getD v 0
      = (1 - d) * pers.getD v 0
        + d * ((in_or_out_edges_range g v).map
            (fun e => rank.getD (flowSource g v e) 0 * e.w
              / out_degreeS g (flowSource g v e))).sum
    ∧ (prStep g (degInit g) pers d rank).2
      = ((List.range g.n).map
          (fun u => |(1 - d) * pers.getD u 0
              + d * ((in_or_out_edges_range g u).map
                  (fun e => rank.getD (flowSource g u e) 0 * e.w
                    / out_degreeS g (flowSource g u e))).sum
              - rank.getD u 0|)).sum := by
  constructor
  · rw [prStep]
    rw [getD_map_range _ _ _ hv, vertexAccum_eq_sum g rank v hwf]
  · rw [prStep]
    refine congrArg List.sum (List.map_congr_left ?_)
    intro u hu
    rw [getD_map_range _ _ _ (List.mem_range.mp hu),
      vertexAccum_eq_sum g rank u hwf]

theorem prStep_implements_update_witness :
    (prStep ⟨1, true, []⟩ (degInit ⟨1, true, []⟩) [2] 0 [3]).1.getD 0 0
      = (1 - 0) * ([(2 : ℚ)].getD 0 0)
        + 0 * ((in_or_out_edges_range ⟨1, true, []⟩ 0).map
            (fun e => [(3 : ℚ)].getD (flowSource ⟨1, true, []⟩ 0 e) 0 * e.w
              / out_degreeS ⟨1, true, []⟩ (flowSource ⟨1, true, []⟩ 0 e))).sum
    ∧ (prStep ⟨1, true, []⟩ (degInit ⟨1, true, []⟩) [2] 0 [3]).2
      = ((List.range 1).map
          (fun u => |(1 - 0) * ([(2 : ℚ)].getD u 0)
              + 0 * ((in_or_out_edges_range ⟨1, true, []⟩ u).map
                  (fun e => [(3 : ℚ)].getD (flowSource ⟨1, true, []⟩ u e) 0 * e.w
                    / out_degreeS ⟨1, true, []⟩ (flowSource ⟨1, true, []⟩ u e))).sum
              - [(3 : ℚ)].getD u 0|)).sum :=
  prStep_implements_update ⟨1, true, []⟩ [2] 0 [3] 0 (by decide) (by decide)

/-! ### Claim C5 -/

theorem lookup_mem (l : List (String × Nat)) (r : String) (v : Nat)
    (h : l.lookup r = some v) : (r, v) ∈ l := by
  induction l with
  | nil => simp [List.lookup] at h
  | cons p rest ih =>
    obtain ⟨k, b⟩ := p
    rw [List.lookup] at h
    cases hk : r == k with
    | false =>
      rw [hk] at h
      exact List.mem_cons_of_mem _ (ih h)
    | true =>
      rw [hk] at h
      obtain rfl : b = v := by injection h
      have hrk : r = k := eq_of_beq hk
      rw [hrk]
      exact List.mem_cons_self _ _

/-- The bookkeeping invariant of the hashed loader's state: the vertex count
equals the dedup table's size, the caller's vertex map holds exactly the
reversed table entries, and every table index is a valid vertex. -/
def hInv (st : HState) : Prop :=
  st.numV = st.table.length
  ∧ st.vmap = st.table.map (fun p => (p.2, p.1))
  ∧ ∀ p ∈ st.table, p.2 < st.numV

theorem get_vertex_step (r : String) (st : HState) (h : hInv st) :
    (get_vertex r st).2.table = tblStep st.table r
    ∧ hInv (get_vertex r st).2
    ∧ (get_vertex r st).1 < (get_vertex r st).2.numV
    ∧ (get_vertex r st).2.edges = st.edges := by
  obtain ⟨hlen, hvm, hlt⟩ := h
  cases hl : st.table.lookup r with
  | some v =>
    have hgv : get_vertex r st = (v, st) := by simp [get_vertex, hl]
    rw [hgv]
    refine ⟨?_, ⟨hlen, hvm, hlt⟩, hlt _ (lookup_mem _ _ _ hl), rfl⟩
    rw [tblStep, hl]
    rfl
  | none =>
    have hgv : get_vertex r st = (st.numV, ⟨st.numV + 1, st.table ++ [(r, st.numV)],
        st.vmap ++ [(st.numV, r)], st.edges⟩) := by simp [get_vertex, hl]
    rw [hgv]
    refine ⟨?_, ⟨by simp [hlen], ?_, ?_⟩, by simp, rfl⟩
    · rw [tblStep, hl, hlen]
      rfl
    · rw [hvm, List.map_append]
      rfl
    · intro p hp
      rcases List.mem_append.mp hp with hp | hp
      · exact Nat.lt_succ_of_lt (hlt p hp)
      · simp at hp
        simp [hp]

theorem processHRow_step (row : String × String) (st : HState) (h : hInv st) :
    (processHRow row st).table = tblStep (tblStep st.table row.1) row.2
    ∧ hInv (processHRow row st)
    ∧ ∃ p, (processHRow row st).edges = st.edges ++ [p] := by
  obtain ⟨ht1, hinv1, hlt1, he1⟩ := get_vertex_step row.1 st h
  have hst1eq : (⟨max (get_vertex row.1 st).2.numV ((get_vertex row.1 st).1 + 1),
      (get_vertex row.1 st).2.table, (get_vertex row.1 st).2.vmap,
      (get_vertex row.1 st).2.edges⟩ : HState) = (get_vertex row.1 st).2 := by
    rw [Nat.max_eq_left hlt1]
  obtain ⟨ht2, hinv2, hlt2, he2⟩ := get_vertex_step row.2 (get_vertex row.1 st).2 hinv1
  have hpr : processHRow row st
      = ⟨max (get_vertex row.2 (get_vertex row.1 st).2).2.numV
          ((get_vertex row.2 (get_vertex row.1 st).2).1 + 1),
        (get_vertex row.2 (get_vertex row.1 st).2).2.table,
        (get_vertex row.2 (get_vertex row.1 st).2).2.vmap,
        (get_vertex row.2 (get_vertex row.1 st).2).2.edges
          ++ [((get_vertex row.1 st).1, (get_vertex row.2 (get_vertex row.1 st).2).1)]⟩ := by
    simp only [processHRow]
    rw [hst1eq]
  obtain ⟨h2a, h2b, h2c⟩ := hinv2
  have hmax2 : max (get_vertex row.2 (get_vertex row.1 st).2).2.numV
      ((get_vertex row.2 (get_vertex row.1 st).2).1 + 1)
      = (get_vertex row.2 (get_vertex row.1 st).2).2.numV := Nat.max_eq_left hlt2
  rw [hpr]
  refine ⟨?_, ⟨?_, ?_, ?_⟩,
    ⟨((get_vertex row.1 st).1, (get_vertex row.2 (get_vertex row.1 st).2).1), ?_⟩⟩
  · show (get_vertex row.2 (get_vertex row.1 st).2).2.table = _
    rw [ht2, ht1]
  · show max _ _ = (get_vertex row.2 (get_vertex row.1 st).2).2.table.length
    rw [hmax2]
    exact h2a
  · exact h2b
  · intro p hp
    show p.2 < max _ _
    rw [hmax2]
    exact h2c p hp
  · show (get_vertex row.2 (get_vertex row.1 st).2).2.edges ++ _ = _
    rw [he2, he1]

theorem add_edge_list_hashed_table_spec (rows : List (String × String)) :
    ∀ st : HState, hInv st →
    (add_edge_list_hashed rows st).table
      = (rows.flatMap (fun p => [p.1, p.2])).foldl tblStep st.table
    ∧ hInv (add_edge_list_hashed rows st) := by
  induction rows with
  | nil => intro st h; exact ⟨rfl, h⟩
  | cons row rest ih =>
    intro st h
    obtain ⟨ht, hinv, _⟩ := processHRow_step row st h
    have hfold : add_edge_list_hashed (row :: rest) st
        = add_edge_list_hashed rest (processHRow row st) := rfl
    rw [hfold]
    obtain ⟨h1, h2⟩ := ih (processHRow row st) hinv
    refine ⟨?_, h2⟩
    rw [h1, ht, List.flatMap_cons]
    rfl

/-- Claim C5: in the hashed edge-list loader each first-seen key is assigned
a newly allocated vertex index — the indices being assigned in first-seen
order, so that the final dedup table is exactly the first-seen enumeration of
the keys — the key-to-index mapping is recorded in the caller-supplied
vertex attribute map, and a repeated key reuses its existing index without
any mutation; in particular the text-key input
`[["a","b"],["b","c"],["a","c"]]` yields exactly 3 vertices with "a"→0,
"b"→1, "c"→2 and the 3 edges matching the key pairs. -/
theorem add_edge_list_hashed_first_seen :
    (∀ (r : String) (st : HState) (v : Nat), st.table.lookup r = some v →
      get_vertex r st = (v, st))
    ∧ (∀ (r : String) (st : HState), st.table.lookup r = none →
      get_vertex r st = (st.numV, ⟨st.numV + 1, st.table ++ [(r, st.numV)],
        st.vmap ++ [(st.numV, r)], st.edges⟩))
    ∧ (∀ rows : List (String × String),
        (add_edge_list_hashed rows ⟨0, [], [], []⟩).table
          = specKeyAssign (rows.flatMap (fun p => [p.1, p.2]))
        ∧ (add_edge_list_hashed rows ⟨0, [], [], []⟩).vmap
          = (specKeyAssign (rows.flatMap (fun p => [p.1, p.2]))).map
              (fun p => (p.2, p.1)))
    ∧ add_edge_list_hashed [("a", "b"), ("b", "c"), ("a", "c")] ⟨0, [], [], []⟩
        = ⟨3, [("a", 0), ("b", 1), ("c", 2)], [(0, "a"), (1, "b"), (2, "c")],
            [(0, 1), (1, 2), (0, 2)]⟩ := by
  have hinv0 : hInv ⟨0, [], [], []⟩ := ⟨rfl, rfl, by simp⟩
  refine ⟨?_, ?_, ?_, by decide⟩
  · intro r st v h
    simp [get_vertex, h]
  · intro r st h
    simp [get_vertex, h]
  · intro rows
    obtain ⟨ht, _, hvm, _⟩ := add_edge_list_hashed_table_spec rows ⟨0, [], [], []⟩ hinv0
    refine ⟨ht, ?_⟩
    rw [hvm, ht]
    rfl

theorem add_edge_list_hashed_first_seen_witness :
    get_vertex "a" ⟨1, [("a", 0)], [(0, "a")], []⟩
      = (0, ⟨1, [("a", 0)], [(0, "a")], []⟩) :=
  add_edge_list_hashed_first_seen.1 "a" ⟨1, [("a", 0)], [(0, "a")], []⟩ 0 (by decide)

/-! ### Claim C6 -/

/-- Claim C6: the direct-index loader grows the graph by appending new
vertices whenever a record references an index at or beyond the current
vertex count, and appends exactly one edge per record in input order —
duplicate records append duplicate edges, never deduplicated; in particular
the two-column array `[[0,1],[1,2],[2,0]]` with no attribute maps turns the
empty graph into a graph with exactly 3 vertices and exactly the 3 edges
(0→1), (1→2), (2→0). -/
theorem add_edge_list_direct_appends :
    (∀ (rows : List (List Int)) (st : LState), (∀ row ∈ rows, row.length = 2) →
      runRecords [] rows st = .ok
        { numV := rows.foldl (fun nv row => growVerts nv (recS row) (recT row)) st.numV,
          edges := st.edges ++ rows.map (fun row => (recS row, recT row)),
          attrVals := st.attrVals })
    ∧ do_add_edge_list [] ⟨.int32, 2, [[0, 1], [1, 2], [2, 0]]⟩ ⟨0, [], []⟩
        = .ok ⟨3, [(0, 1), (1, 2), (2, 0)], []⟩ := by
  constructor
  · intro rows
    induction rows with
    | nil => intro st _; simp [runRecords]
    | cons row rest ih =>
      intro st hlen
      have hrest : ∀ r ∈ rest, r.length = 2 :=
        fun r hr => hlen r (List.mem_cons_of_mem _ hr)
      have hpr : processRecord [] row st = .ok
          { numV := growVerts st.numV (recS row) (recT row),
            edges := st.edges ++ [(recS row, recT row)], attrVals := st.attrVals } := by
        rw [processRecord, List.zip_nil_right]
        rfl
      rw [runRecords, hpr]
      show runRecords [] rest
        ⟨growVerts st.numV (recS row) (recT row),
         st.edges ++ [(recS row, recT row)], st.attrVals⟩ = _
      rw [ih _ hrest]
      simp [List.foldl_cons, List.append_assoc]
  · rfl

theorem add_edge_list_direct_appends_witness :
    runRecords [] [[5, 7]] ⟨1, [(9, 9)], []⟩ = .ok ⟨8, [(9, 9), (5, 7)], []⟩ := by
  have h := add_edge_list_direct_appends.1 [[5, 7]] ⟨1, [(9, 9)], []⟩ (by decide)
  rw [h]
  rfl

/-! ### Claim C8 -/

theorem runRecords_append_ok (convs : List (Int → Option Int))
    (l1 l2 : List (List Int)) :
    ∀ st st1 : LState, runRecords convs l1 st = .ok st1 →
    runRecords convs (l1 ++ l2) st = runRecords convs l2 st1 := by
  induction l1 with
  | nil =>
    intro st st1 h
    obtain rfl : st = st1 := by injection h
    rfl
  | cons r rest ih =>
    intro st st1 h
    rw [runRecords] at h
    rw [List.cons_append, runRecords]
    cases hp : processRecord convs r st with
    | ok stm =>
      rw [hp] at h
      exact ih stm st1 h
    | error e =>
      rw [hp] at h
      simp at h

theorem putProps_error (ne : Nat) (pairs : List (Int × (Int → Option Int))) :
    ∀ (i : Nat) (st st' : LState) (msg : String),
    putProps ne i pairs st = .error (msg, st') →
    (∃ v, msg = errMsg v ∧ v ∈ pairs.map Prod.fst)
    ∧ st'.edges = st.edges ∧ st'.numV = st.numV
    ∧ ∃ suff, st'.attrVals = st.attrVals ++ suff := by
  induction pairs with
  | nil => intro i st st' msg h; simp [putProps] at h
  | cons p rest ih =>
    intro i st st' msg h
    obtain ⟨v, c⟩ := p
    rw [putProps] at h
    cases hc : c v with
    | some w =>
      rw [hc] at h
      obtain ⟨⟨u, hu, hmem⟩, he, hn, suff, ha⟩ := ih (i + 1) _ _ _ h
      refine ⟨⟨u, hu, List.mem_cons_of_mem _ hmem⟩, he, hn, ⟨(i, ne, w) :: suff, ?_⟩⟩
      rw [ha]
      simp
    | none =>
      rw [hc] at h
      injection h with h1
      have h2 : errMsg v = msg := congrArg Prod.fst h1
      have h3 : st = st' := congrArg Prod.snd h1
      subst h2
      subst h3
      exact ⟨⟨v, rfl, List.mem_cons_self _ _⟩, rfl, rfl, ⟨[], by simp⟩⟩

theorem processRecord_error (convs : List (Int → Option Int)) (row : List Int)
    (st st' : LState) (msg : String)
    (h : processRecord convs row st = .error (msg, st')) :
    (∃ v, msg = errMsg v ∧ v ∈ row.drop 2)
    ∧ st'.edges = st.edges ++ [(recS row, recT row)]
    ∧ st'.numV = growVerts st.numV (recS row) (recT row)
    ∧ ∃ suff, st'.attrVals = st.attrVals ++ suff := by
  rw [processRecord] at h
  obtain ⟨⟨v, hv, hmem⟩, he, hn, suff, ha⟩ := putProps_error _ _ _ _ _ _ h
  refine ⟨⟨v, hv, ?_⟩, he, hn, ⟨suff, ha⟩⟩
  obtain ⟨x, hx, hxv⟩ := List.mem_map.mp hmem
  obtain ⟨a, b⟩ := x
  cases hxv
  exact (List.of_mem_zip hx).1

/-- Claim C8: when an attribute value of some record cannot be coerced into
its target edge property map's type, the whole load aborts with the
descriptive `ValueException` naming the offending value, while everything
created before the failure persists: the edges and attribute values of all
earlier records (and the failing record's own edge, added before its
attributes) are still present in the resulting state — the loader performs
no rollback, and the remaining records are never processed. -/
theorem add_edge_list_conversion_aborts (convs : List (Int → Option Int))
    (pre : List (List Int)) (row : List Int) (post : List (List Int))
    (st st1 st2 : LState) (msg : String)
    (h1 : runRecords convs pre st = .ok st1)
    (h2 : processRecord convs row st1 = .error (msg, st2)) :
    runRecords convs (pre ++ row :: post) st = .error (msg, st2)
    ∧ (∃ v, msg = errMsg v ∧ v ∈ row.drop 2)
    ∧ st2.edges = st1.edges ++ [(recS row, recT row)]
    ∧ st1.numV ≤ st2.numV
    ∧ ∃ suff, st2.attrVals = st1.attrVals ++ suff := by
  obtain ⟨hv, he, hn, ha⟩ := processRecord_error convs row st1 st2 msg h2
  refine ⟨?_, hv, he, ?_, ha⟩
  · rw [runRecords_append_ok convs pre (row :: post) st st1 h1, runRecords, h2]
  · rw [hn, growVerts]
    exact Nat.le_max_left _ _

theorem add_edge_list_conversion_aborts_witness :
    runRecords [fun v => if v = 7 then none else some v]
      ([[0, 1, 5]] ++ [0, 1, 7] :: [[9, 9, 9]]) ⟨0, [], []⟩
      = .error (errMsg 7, ⟨2, [(0, 1), (0, 1)], [(0, 0, 5)]⟩) :=
  (add_edge_list_conversion_aborts [fun v => if v = 7 then none else some v]
    [[0, 1, 5]] [0, 1, 7] [[9, 9, 9]] ⟨0, [], []⟩ ⟨2, [(0, 1)], [(0, 0, 5)]⟩
    ⟨2, [(0, 1), (0, 1)], [(0, 0, 5)]⟩ (errMsg 7) (by rfl) (by rfl)).1

/-! ### Claims C3 and C9 -/

theorem prBody_iter (g : Graph) (deg pers : List ℚ) (d : ℚ) (st : PRState) :
    (prBody g deg pers d st).iter = st.iter + 1 := by
  cases hs : st.swapped <;> simp [prBody, hs]

theorem prBody_curRank (g : Graph) (deg pers : List ℚ) (d : ℚ) (st : PRState) :
    curRank (prBody g deg pers d st) = (prStep g deg pers d (curRank st)).1 := by
  cases hs : st.swapped <;> simp [prBody, curRank, hs]

theorem prBody_delta (g : Graph) (deg pers : List ℚ) (d : ℚ) (st : PRState) :
    (prBody g deg pers d st).delta = (prStep g deg pers d (curRank st)).2 := by
  cases hs : st.swapped <;> simp [prBody, curRank, hs]

theorem prFixup_iter (st : PRState) : (prFixup st).iter = st.iter := by
  rw [prFixup]
  split
  · split <;> rfl
  · rfl

/-- The while loop returns, at the first loop entry or break whose exit
condition fires, the state of the first iteration count satisfying
`exitCond`; on the way there it never skips a satisfied exit condition. -/
theorem prLoop_exit_first (g : Graph) (pers rank0 : List ℚ) (d eps : ℚ) (maxIter : Nat) :
    ∀ (fuel : Nat) (st st' : PRState),
    prLoop g (degInit g) pers d eps maxIter fuel st = some st' →
    curRank st = ranksAt g pers d rank0 st.iter →
    ((st.iter = 0 ∧ st.delta = eps + 1)
      ∨ (1 ≤ st.iter ∧ st.delta = deltaAt g pers d rank0 st.iter)) →
    (0 < maxIter → st.iter < maxIter) →
    (∀ k, 1 ≤ k → k < st.iter → ¬ exitCond g pers d rank0 eps maxIter k) →
    1 ≤ st'.iter ∧ exitCond g pers d rank0 eps maxIter st'.iter
      ∧ (∀ k, 1 ≤ k → k < st'.iter → ¬ exitCond g pers d rank0 eps maxIter k) := by
  intro fuel
  induction fuel with
  | zero => intro st st' h; simp [prLoop] at h
  | succ n ih =>
    intro st st' h hcur hdelta hmax hpre
    rw [prLoop] at h
    by_cases hlt : st.delta < eps
    · rw [if_pos hlt] at h
      obtain rfl : st = st' := by injection h
      rcases hdelta with ⟨h0, hd⟩ | ⟨h1, hd⟩
      · exfalso
        rw [hd] at hlt
        linarith
      · exact ⟨h1, Or.inl (hd ▸ hlt), hpre⟩
    · rw [if_neg hlt] at h
      have hiter1 : (prBody g (degInit g) pers d st).iter = st.iter + 1 :=
        prBody_iter g (degInit g) pers d st
      have hcur1 : curRank (prBody g (degInit g) pers d st)
          = ranksAt g pers d rank0 (st.iter + 1) := by
        rw [prBody_curRank, hcur]
        simp [ranksAt]
      have hdelta1 : (prBody g (degInit g) pers d st).delta
          = deltaAt g pers d rank0 (st.iter + 1) := by
        rw [prBody_delta, hcur]
        simp [deltaAt]
      have hnot : ∀ k, 1 ≤ k → k < st.iter + 1 →
          ¬ exitCond g pers d rank0 eps maxIter k := by
        intro k hk1 hk2
        rcases Nat.lt_or_ge k st.iter with hk | hk
        · exact hpre k hk1 hk
        · have hkeq : k = st.iter := by omega
          subst hkeq
          intro hex
          rcases hex with hdl | ⟨hm, hmx⟩
          · rcases hdelta with ⟨h0, _⟩ | ⟨_, hd⟩
            · omega
            · exact hlt (hd ▸ hdl)
          · exact absurd hmx (Nat.ne_of_lt (hmax hm))
      by_cases hbrk : 0 < maxIter ∧ (prBody g (degInit g) pers d st).iter = maxIter
      · rw [if_pos hbrk] at h
        obtain rfl : prBody g (degInit g) pers d st = st' := by injection h
        refine ⟨by omega, Or.inr hbrk, ?_⟩
        rw [hiter1]
        exact hnot
      · rw [if_neg hbrk] at h
        refine ih _ st' h (by rw [hiter1]; exact hcur1)
          (Or.inr ⟨by omega, by rw [hiter1]; exact hdelta1⟩) ?_ (by rw [hiter1]; exact hnot)
        intro hm
        have h1 := hmax hm
        have hne : (prBody g (degInit g) pers d st).iter ≠ maxIter :=
          fun he => hbrk ⟨hm, he⟩
        omega

/-- When `max_iter` is nonzero the loop always exits within `max_iter`
iterations. -/
theorem prLoop_total (g : Graph) (deg pers : List ℚ) (d eps : ℚ) (maxIter : Nat) :
    ∀ (fuel : Nat) (st : PRState), 0 < maxIter → st.iter < maxIter →
    maxIter ≤ st.iter + fuel →
    (prLoop g deg pers d eps maxIter fuel st).isSome := by
  intro fuel
  induction fuel with
  | zero => intro st hm h1 h2; omega
  | succ n ih =>
    intro st hm h1 h2
    rw [prLoop]
    by_cases hlt : st.delta < eps
    · rw [if_pos hlt]
      rfl
    · rw [if_neg hlt]
      by_cases hbrk : 0 < maxIter ∧ (prBody g deg pers d st).iter = maxIter
      · rw [if_pos hbrk]
        rfl
      · rw [if_neg hbrk]
        have hit := prBody_iter g deg pers d st
        have hne : (prBody g deg pers d st).iter ≠ maxIter := fun he => hbrk ⟨hm, he⟩
        exact ih _ hm (by omega) (by omega)

/-- Claim C3: a successful run of the PageRank kernel exits the loop at
exactly the first iteration count `n` satisfying the exit condition — either
iteration `n`'s accumulated absolute delta is below `epsilon`, or (when
`max_iter` is nonzero) `n` equals `max_iter`, whichever occurs first — and
that count is returned to the caller; moreover with a nonzero `max_iter` the
loop always terminates normally (the run returns a value rather than running
forever), so reaching `max_iter` without convergence is an ordinary,
reported outcome. -/
theorem get_pagerank_stops_at_first_exit (g : Graph) (rank0 pers : List ℚ)
    (d eps : ℚ) (maxIter : Nat) (h0 : 0 ≤ d) (h1 : d < 1) (heps : 0 < eps) :
    (∀ (fuel : Nat) (r : List ℚ) (n : Nat),
      get_pagerank g rank0 pers d eps maxIter fuel = some (r, n) →
      exitCond g pers d rank0 eps maxIter n
      ∧ ∀ k, 1 ≤ k → k < n → ¬ exitCond g pers d rank0 eps maxIter k)
    ∧ (∀ fuel : Nat, 0 < maxIter → maxIter < fuel →
        (get_pagerank g rank0 pers d eps maxIter fuel).isSome) := by
  constructor
  · intro fuel r n h
    rw [get_pagerank] at h
    cases hl : prLoop g (degInit g) pers d eps maxIter fuel
        ⟨rank0, List.replicate g.n 0, false, eps + 1, 0⟩ with
    | none => rw [hl] at h; exact absurd h (by simp)
    | some st =>
      rw [hl] at h
      have hn : n = st.iter := by
        have : ((prFixup st).bufA, (prFixup st).iter) = (r, n) := by injection h
        have h2 : (prFixup st).iter = n := congrArg Prod.snd this
        rw [← h2, prFixup_iter]
      obtain ⟨_, hexit, hmin⟩ := prLoop_exit_first g pers rank0 d eps maxIter fuel
        ⟨rank0, List.replicate g.n 0, false, eps + 1, 0⟩ st hl rfl
        (Or.inl ⟨rfl, rfl⟩) (fun hm => hm) (fun k hk1 hk2 => absurd hk2 (Nat.not_lt_zero k))
      rw [hn]
      exact ⟨hexit, hmin⟩
  · intro fuel hm hf
    have h := prLoop_total g (degInit g) pers d eps maxIter fuel
      ⟨rank0, List.replicate g.n 0, false, eps + 1, 0⟩ hm hm (by omega)
    rw [get_pagerank]
    cases hl : prLoop g (degInit g) pers d eps maxIter fuel
        ⟨rank0, List.replicate g.n 0, false, eps + 1, 0⟩ with
    | none => rw [hl] at h; simp at h
    | some st => rfl

theorem get_pagerank_stops_at_first_exit_witness :
    (get_pagerank ⟨0, true, []⟩ [] [] 0 1 2 5).isSome :=
  (get_pagerank_stops_at_first_exit ⟨0, true, []⟩ [] [] 0 1 2
    (by decide) (by decide) (by decide)).2 5 (by decide) (by decide)

/-- Claim C9: every successful PageRank run executes at least one full
iteration before the convergence check can exit the loop (the initial delta
is `epsilon + 1 ≥ epsilon`), so the returned iteration count is at least 1
for every input — any graph, any damping, any `max_iter`, and even
already-converged initial ranks. -/
theorem get_pagerank_at_least_one_iteration (g : Graph) (rank0 pers : List ℚ)
    (d eps : ℚ) (maxIter fuel : Nat) (r : List ℚ) (n : Nat) (heps : 0 < eps)
    (h : get_pagerank g rank0 pers d eps maxIter fuel = some (r, n)) : 1 ≤ n := by
  rw [get_pagerank] at h
  cases hl : prLoop g (degInit g) pers d eps maxIter fuel
      ⟨rank0, List.replicate g.n 0, false, eps + 1, 0⟩ with
  | none => rw [hl] at h; exact absurd h (by simp)
  | some st =>
    rw [hl] at h
    have hn : n = st.iter := by
      have : ((prFixup st).bufA, (prFixup st).iter) = (r, n) := by injection h
      have h2 : (prFixup st).iter = n := congrArg Prod.snd this
      rw [← h2, prFixup_iter]
    obtain ⟨hone, _, _⟩ := prLoop_exit_first g pers rank0 d eps maxIter fuel
      ⟨rank0, List.replicate g.n 0, false, eps + 1, 0⟩ st hl rfl
      (Or.inl ⟨rfl, rfl⟩) (fun hm => hm) (fun k hk1 hk2 => absurd hk2 (Nat.not_lt_zero k))
    omega

theorem get_pagerank_at_least_one_iteration_witness : 1 ≤ 1 :=
  get_pagerank_at_least_one_iteration ⟨0, true, []⟩ [] [] 0 1 0 3 [] 1
    (by decide) (by decide)
